import Mathlib

/-!
Verification of the task dependency graph leveler of this repository.

Two Python source variants are embedded:

* `src/scripts/build-dependency-graph.py` — functions `build_dependency_graph`,
  `compute_execution_levels`, `compute_stats`.  Embedded here under the same
  names (string-typed levels, warning-and-dump behaviour on unresolvable
  dependencies, `sort(key=lambda x: int(x) if x.isdigit() else x)`).
* `src/.scripts/build-dependency-graph.py` — functions `parse_tasks`,
  `validate_dependencies`, `detect_circular_dependencies`,
  `build_execution_levels`, `calculate_parallelism_stats`.

Modelling conventions:
* Python dicts are embedded as association lists that keep insertion order;
  first-match lookup together with update-in-place mirrors dict semantics.
* Python sets are embedded as lists used only through membership tests; the
  algorithms below never depend on set iteration order except for tie-breaks
  between distinct ids with equal sort key, which Python itself leaves to hash
  order.
* Python exceptions are embedded as `Except` error constructors.
* `float` arithmetic of the stats calculator is embedded over `ℚ`;
  `round(x, 2)` is embedded as exact rational rounding, half to even,
  matching Python's documented rounding rule.
* `str.isdigit` and `int(...)` are embedded for ASCII content (ids arise from
  `str()` applied to JSON scalars): `int` accepts an optional sign followed by
  decimal digits.
-/

/-- Python scalar values that occur as task ids or dependency entries. -/
inductive Prim where
  | s (v : String)
  | i (n : Int)
  | null
deriving DecidableEq, Repr

/-- Python `str()` on a scalar: strings unchanged, ints in decimal, `None` as `"None"`. -/
def pyStr : Prim → String
  | .s v => v
  | .i n => toString n
  | .null => "None"

/-- Python truthiness of a scalar: `""`, `0` and `None` are falsy. -/
def truthyP : Prim → Bool
  | .s v => v ≠ ""
  | .i n => n ≠ 0
  | .null => false

/-- Numeric value of a list of decimal digit characters, as read left to right. -/
def digitsVal (l : List Char) : Nat :=
  l.foldl (fun acc c => acc * 10 + (c.toNat - 48)) 0

/-- Python `s.isdigit()` for ASCII strings: non-empty and all characters digits. -/
def isDigitStr (s : String) : Bool :=
  !s.data.isEmpty && s.data.all (fun c => c.isDigit)

/-- Sort key value used by the scripts variant for digit strings (`int(x)`). -/
def natVal (s : String) : Nat := digitsVal s.data

/-- Python `int(s)` on ASCII strings: optional sign then decimal digits, else `ValueError`. -/
def pyIntParse (s : String) : Option Int :=
  match s.data with
  | [] => none
  | '-' :: rest =>
      if !rest.isEmpty && rest.all (fun c => c.isDigit) then some (-(digitsVal rest : Int)) else none
  | '+' :: rest =>
      if !rest.isEmpty && rest.all (fun c => c.isDigit) then some ((digitsVal rest : Int)) else none
  | l =>
      if !l.isEmpty && l.all (fun c => c.isDigit) then some ((digitsVal l : Int)) else none

/-- A dependency dict: task id mapped to its list of dependency ids
(Python `dict`/`defaultdict(set)` embedded as an insertion-ordered association list). -/
abbrev Graph := List (String × List String)

/-- First-match association lookup, with the empty list as default:
Python `deps.get(task_id, set())` / `task_deps[task_id]`. -/
def depsOf : Graph → String → List String
  | [], _ => []
  | (k, vs) :: rest, t => if k = t then vs else depsOf rest t

/-- The keys of a dependency dict, in insertion order. -/
def keysOf (g : Graph) : List String := g.map Prod.fst

/-- The dependency relation: `DepRel g a b` when task `a` lists `b` as a dependency. -/
def DepRel (g : Graph) (a b : String) : Prop := b ∈ depsOf g a

/-- Acyclicity of the dependency relation: no task reaches itself through
one or more dependency edges. -/
def Acyclic (g : Graph) : Prop := ∀ t, ¬ Relation.TransGen (DepRel g) t t

/-- Referential integrity: every dependency id referenced by any task is a key. -/
def NoDangling (g : Graph) : Prop := ∀ p ∈ g, ∀ d ∈ p.2, d ∈ keysOf g

/-- Numeric-key comparison used by the scripts sort for digit strings. -/
def numLe (a b : String) : Prop := natVal a ≤ natVal b

instance : DecidableRel numLe := fun a b => inferInstanceAs (Decidable (natVal a ≤ natVal b))

instance : IsTotal String numLe := ⟨fun a b => Nat.le_total (natVal a) (natVal b)⟩

instance : IsTrans String numLe := ⟨fun _ _ _ h1 h2 => Nat.le_trans h1 h2⟩

/-- Errors raised by the scripts variant. -/
inductive PyErr where
  | typeError
  | typeErrorIter
  | fuelOut
deriving DecidableEq, Repr

/-- `ready_tasks.sort(key=lambda x: int(x) if x.isdigit() else x)`: the key is an
`int` for digit strings and a `str` otherwise; comparing the two kinds raises
`TypeError`, which happens exactly when the list holds both.  Python's sort is
stable, so on a homogeneous list it agrees with a stable insertion sort by key. -/
def sort_ready (l : List String) : Except PyErr (List String) :=
  if l.any (fun s => isDigitStr s) && l.any (fun s => !isDigitStr s) then .error .typeError
  else if l.all (fun s => isDigitStr s) then .ok (l.insertionSort numLe)
  else .ok (l.insertionSort (fun a b => a ≤ b))

/-- The `while remaining_tasks:` loop of `compute_execution_levels`.  Each pass
collects the remaining tasks whose dependencies are all resolved; if none are
ready it prints a warning and dumps every remaining task into the level.  The
fuel argument is only a structural-recursion bound: every pass removes at least
one task, so fuel `remaining.length` never runs out (`compute_loop_no_fuelOut`). -/
def compute_loop (deps : Graph) : Nat → List String → List String → Except PyErr (List (List String))
  | _, _, [] => .ok []
  | 0, _, _ :: _ => .error .fuelOut
  | fuel + 1, resolved, t :: ts =>
      let remaining := t :: ts
      let ready0 := remaining.filter (fun u => (depsOf deps u).all (fun d => resolved.contains d))
      let ready := if ready0.isEmpty then remaining else ready0
      match sort_ready ready with
      | .error e => .error e
      | .ok lvl =>
          match compute_loop deps fuel (resolved ++ ready)
              (remaining.filter (fun u => !(ready.contains u))) with
          | .error e => .error e
          | .ok rest => .ok (lvl :: rest)

/-- `compute_execution_levels(deps, task_lookup)` of the scripts variant:
`tasks` is the key set of `task_lookup`. -/
def compute_execution_levels (deps : Graph) (tasks : List String) :
    Except PyErr (List (List String)) :=
  if tasks.isEmpty then .ok [] else compute_loop deps tasks.length [] tasks

/-- Exact rational version of Python `round(q, 2)` (round half to even). -/
def pyRound2 (q : ℚ) : ℚ :=
  let x : ℚ := 100 * q
  let f : ℤ := Int.floor x
  let r : ℚ := x - f
  let n : ℤ :=
    if r < 1 / 2 then f
    else if 1 / 2 < r then f + 1
    else if f % 2 = 0 then f else f + 1
  (n : ℚ) / 100

/-- The stats record produced by `compute_stats` (scripts variant). -/
structure Stats where
  total_tasks : Nat
  total_levels : Nat
  max_parallelism : Nat
  avg_parallelism : ℚ
deriving DecidableEq, Repr

/-- `compute_stats(levels)` of the scripts variant. -/
def compute_stats (levels : List (List String)) : Stats :=
  if levels.isEmpty then ⟨0, 0, 0, 0⟩
  else
    let sizes := levels.map List.length
    ⟨sizes.sum, levels.length, sizes.foldr max 0,
      pyRound2 ((sizes.sum : ℚ) / (levels.length : ℚ))⟩

/-- A dependency entry of the scripts variant: either a scalar or an object
(`dict`) whose `id` field is read (`dep.get('id', '')`, absent or null modelled
by the `Option`/`Prim.null`). -/
inductive DepEntry where
  | prim (p : Prim)
  | obj (id : Option Prim)
deriving DecidableEq, Repr

/-- The value of a `dependencies`/`dependsOn` field: a sequence of entries, a
single delimited string, or JSON null. -/
inductive DepVal where
  | list (l : List DepEntry)
  | str (s : String)
  | null
deriving DecidableEq, Repr

/-- Python truthiness of a dependency field value. -/
def truthyD : DepVal → Bool
  | .list l => !l.isEmpty
  | .str s => s ≠ ""
  | .null => false

/-- A raw task record as consumed by `build_dependency_graph`: the `id`,
`dependencies` and `dependsOn` fields, each possibly absent. -/
structure RawTask where
  id : Option Prim
  dependencies : Option DepVal
  dependsOn : Option DepVal
deriving DecidableEq, Repr

/-- `str(task.get('id', ''))`. -/
def raw_id (t : RawTask) : String := pyStr (t.id.getD (Prim.s ""))

/-- `task.get('dependencies', []) or task.get('dependsOn', [])`: the first
field if truthy, else the second (Python `or` yields its second operand
unconditionally when the first is falsy). -/
def effective_deps (t : RawTask) : DepVal :=
  let d1 := t.dependencies.getD (DepVal.list [])
  if truthyD d1 then d1 else t.dependsOn.getD (DepVal.list [])

/-- Normalisation of one dependency entry: a `dict` contributes
`str(dep.get('id', ''))`, anything else contributes `str(dep)`. -/
def norm_entry : DepEntry → String
  | .prim p => pyStr p
  | .obj i => pyStr (i.getD (Prim.s ""))

/-- `for dep in dependencies: ...` of `build_dependency_graph`: a list is
iterated entry-wise and empty-stringifying ids are dropped; a string is
iterated character-wise (each character is its own `dep`); iterating `None`
raises `TypeError`. -/
def dep_ids : DepVal → Except PyErr (List String)
  | .list l => .ok ((l.map norm_entry).filter (fun s => s ≠ ""))
  | .str s => .ok ((s.data.map (fun c => String.mk [c])).filter (fun s => s ≠ ""))
  | .null => .error .typeErrorIter

/-- The normalised dependency list a record contributes (empty when it raises;
only used under the hypothesis that building succeeded). -/
def norm_deps_of (t : RawTask) : List String :=
  match dep_ids (effective_deps t) with
  | .ok l => l
  | .error _ => []

/-- `deps[task_id].add(dep_id)` on a `defaultdict(set)`: create the key on first
use, append the dependency if not already present. -/
def insert_dep : Graph → String → String → Graph
  | [], k, v => [(k, [v])]
  | (k', vs) :: rest, k, v =>
      if k' = k then (k', if v ∈ vs then vs else vs ++ [v]) :: rest
      else (k', vs) :: insert_dep rest k v

/-- Add every dependency of one record to the dict. -/
def insert_deps (m : Graph) (k : String) (vs : List String) : Graph :=
  vs.foldl (fun acc v => insert_dep acc k v) m

/-- `task_lookup[task_id] = task`: dict update, overwriting in place. -/
def upsert : List (String × RawTask) → String → RawTask → List (String × RawTask)
  | [], k, v => [(k, v)]
  | (k', v') :: rest, k, v =>
      if k' = k then (k, v) :: rest else (k', v') :: upsert rest k v

/-- First-match lookup in the task lookup table. -/
def assocFind : List (String × RawTask) → String → Option RawTask
  | [], _ => none
  | (k, v) :: rest, t => if k = t then some v else assocFind rest t

/-- The record loop of `build_dependency_graph`, threading the two accumulators. -/
def build_aux : List RawTask → Graph → List (String × RawTask) →
    Except PyErr (Graph × List (String × RawTask))
  | [], deps, lookup => .ok (deps, lookup)
  | t :: rest, deps, lookup =>
      if raw_id t = "" then build_aux rest deps lookup
      else
        match dep_ids (effective_deps t) with
        | .error e => .error e
        | .ok ds => build_aux rest (insert_deps deps (raw_id t) ds) (upsert lookup (raw_id t) t)

/-- `build_dependency_graph(tasks)` of the scripts variant: returns the
dependency dict and the task lookup table. -/
def build_dependency_graph (tasks : List RawTask) :
    Except PyErr (Graph × List (String × RawTask)) :=
  build_aux tasks [] []

/-- The `dependencies` field as distinguished by `parse_tasks` of the .scripts
variant: a sequence of scalars, or a comma-delimited string. -/
inductive SDep where
  | list (l : List Prim)
  | str (s : String)
deriving DecidableEq, Repr

/-- A raw task record as consumed by `parse_tasks`. -/
structure STask where
  id : Option Prim
  dependencies : Option SDep
deriving DecidableEq, Repr

/-- `str(task.get('id', ''))` for the .scripts variant. -/
def s_id (t : STask) : String := pyStr (t.id.getD (Prim.s ""))

/-- Dependency normalisation of `parse_tasks`: a string is split on commas,
stripped and filtered; a list keeps its truthy entries stringified (note the
truthiness test runs on the raw entry, so the integer `0` is dropped). -/
def sdeps_of (t : STask) : List String :=
  match t.dependencies.getD (SDep.list []) with
  | .str s => ((s.splitOn ",").map String.trim).filter (fun d => d ≠ "")
  | .list l => (l.filter truthyP).map pyStr

/-- Dict update for the parsed dependency dict (`task_deps[task_id] = dep_ids`). -/
def dict_set : Graph → String → List String → Graph
  | [], k, v => [(k, v)]
  | (k', v') :: rest, k, v =>
      if k' = k then (k, v) :: rest else (k', v') :: dict_set rest k v

/-- First-match lookup returning `none` for a missing key. -/
def dictFind : Graph → String → Option (List String)
  | [], _ => none
  | (k, vs) :: rest, t => if k = t then some vs else dictFind rest t

/-- The record loop of `parse_tasks`. -/
def parse_aux : List STask → Graph → Graph
  | [], acc => acc
  | t :: rest, acc =>
      if s_id t = "" then parse_aux rest acc
      else parse_aux rest (dict_set acc (s_id t) (sdeps_of t))

/-- `parse_tasks(tasks_data)` of the .scripts variant: task id mapped to its
normalised dependency list, last record with a given id winning. -/
def parse_tasks (tasks : List STask) : Graph := parse_aux tasks []

/-- Result of the first offending `(task, dep)` scan of `validate_dependencies`. -/
def firstBad (g : Graph) : List (String × List String) → Option (String × String)
  | [] => none
  | (t, ds) :: rest =>
      match ds.find? (fun d => !((keysOf g).contains d)) with
      | some d => some (t, d)
      | none => firstBad g rest

/-- `validate_dependencies(task_deps)`: raises `ValueError` naming the first
task and dependency such that the dependency is not a key. -/
def validate_dependencies (g : Graph) : Except (String × String) Unit :=
  match firstBad g g with
  | some e => .error e
  | none => .ok ()

/-- Outcomes of `detect_circular_dependencies`: the id of the DFS root from
which a cycle was reached, or exhaustion of the structural recursion bound
(never reached: the visited set grows on every real recursive call). -/
inductive DetectErr where
  | cyc (t : String)
  | fuelOut
deriving DecidableEq, Repr

/-- The recursive `dfs(task_id)` of `detect_circular_dependencies`: `path` is
the current exploration path (passed downwards, which models the add/remove
stack discipline) and `visited` is threaded through sequentially.  Returns the
updated visited set and whether a cycle was found. -/
def dfs_go (g : Graph) : Nat → String → List String → List String →
    Option (List String × Bool)
  | 0, _, _, _ => none
  | fuel + 1, t, path, visited =>
      if t ∈ path then some (visited, true)
      else if t ∈ visited then some (visited, false)
      else
        (depsOf g t).foldl
          (fun acc d =>
            match acc with
            | none => none
            | some (v, true) => some (v, true)
            | some (v, false) => dfs_go g fuel d (t :: path) v)
          (some (t :: visited, false))

/-- Structural recursion bound for the DFS: the recursion depth is at most the
number of ids occurring in the dict plus one. -/
def dfsFuel (g : Graph) : Nat :=
  g.length + (g.map (fun p => p.2.length)).sum + 1

/-- The driver loop of `detect_circular_dependencies` over all task ids. -/
def detect_go (g : Graph) : List String → List String → Except DetectErr Unit
  | [], _ => .ok ()
  | t :: ts, visited =>
      if t ∈ visited then detect_go g ts visited
      else
        match dfs_go g (dfsFuel g) t [] visited with
        | none => .error .fuelOut
        | some (_, true) => .error (.cyc t)
        | some (v, false) => detect_go g ts v

/-- `detect_circular_dependencies(task_deps)`: raises `ValueError` naming the
task from which the DFS reached a cycle. -/
def detect_circular_dependencies (g : Graph) : Except DetectErr Unit :=
  detect_go g (keysOf g) []

/-- Errors raised by `build_execution_levels` of the .scripts variant:
`ValueError` from `int(task_id)`, the mid-loop `RuntimeError` when no task can
be scheduled, and the post-loop `RuntimeError` after the iteration cap. -/
inductive SErr where
  | valueErrorInt
  | stuckError
  | exhaustedError
deriving DecidableEq, Repr

/-- `int(task_id)` applied to each ready task, failing on the first id that is
not a decimal numeral. -/
def intsOf (l : List String) : Option (List Int) := l.mapM pyIntParse

/-- The `while remaining and iteration < max_iterations` loop of
`build_execution_levels`: fuel is the explicit iteration budget
`len(task_deps) + 1`; when it runs out with tasks remaining the post-loop check
raises the exhaustion `RuntimeError`. -/
def build_loop (g : Graph) : Nat → List String → List String → Except SErr (List (List Int))
  | 0, _, remaining => if remaining.isEmpty then .ok [] else .error .exhaustedError
  | fuel + 1, completed, remaining =>
      if remaining.isEmpty then .ok []
      else
        let ready := remaining.filter (fun t => (depsOf g t).all (fun d => completed.contains d))
        if ready.isEmpty then .error .stuckError
        else
          match intsOf ready with
          | none => .error .valueErrorInt
          | some zs =>
              match build_loop g fuel (completed ++ ready)
                  (remaining.filter (fun t => !(ready.contains t))) with
              | .error e => .error e
              | .ok rest => .ok (zs.insertionSort (fun a b => a ≤ b) :: rest)

/-- `build_execution_levels(task_deps)` of the .scripts variant; note the levels
hold machine integers (`int(task_id)`), not the canonical string ids. -/
def build_execution_levels (g : Graph) : Except SErr (List (List Int)) :=
  build_loop g (g.length + 1) [] (keysOf g)

/-- The stats record of `calculate_parallelism_stats` (.scripts variant). -/
structure SStats where
  total_tasks : Nat
  num_levels : Nat
  max_parallel_tasks : Nat
  avg_parallel_tasks : ℚ
  theoretical_speedup : ℚ
deriving DecidableEq, Repr

/-- `calculate_parallelism_stats(levels)` of the .scripts variant. -/
def calculate_parallelism_stats (levels : List (List Int)) : SStats :=
  let sizes := levels.map List.length
  let total := sizes.sum
  let maxp := if levels.isEmpty then 0 else sizes.foldr max 0
  let avg : ℚ := if levels.isEmpty then 0 else (total : ℚ) / (levels.length : ℚ)
  let speedup : ℚ := if 0 < levels.length then (total : ℚ) / (levels.length : ℚ) else 1
  ⟨total, levels.length, maxp, pyRound2 avg, pyRound2 speedup⟩

/-- The level-structure invariant: every task of each level has all its
dependencies inside the accumulated set of earlier ids. -/
def LevelsOK (deps : Graph) : List String → List (List String) → Prop
  | _, [] => True
  | resolved, lvl :: rest =>
      (∀ t ∈ lvl, ∀ d ∈ depsOf deps t, d ∈ resolved) ∧ LevelsOK deps (resolved ++ lvl) rest

/-- A level as emitted by `sort_ready`: homogeneous in key kind, digit ids in
ascending numeric order or non-digit ids in ascending lexicographic order. -/
def sortedLevel (l : List String) : Prop :=
  (l.all (fun s => isDigitStr s) = true ∧ l.Sorted numLe) ∨
  (l.all (fun s => !isDigitStr s) = true ∧ l.Sorted (fun a b : String => a ≤ b))

/-- Membership in a looked-up dependency list comes from an entry of the dict. -/
theorem mem_of_depsOf {g : Graph} {t d : String} (h : d ∈ depsOf g t) :
    ∃ vs, (t, vs) ∈ g ∧ d ∈ vs := by
  induction g with
  | nil => simp [depsOf] at h
  | cons p rest ih =>
      obtain ⟨k, vs⟩ := p
      by_cases hk : k = t
      · subst hk
        simp [depsOf] at h
        exact ⟨vs, by simp, h⟩
      · simp [depsOf, hk] at h
        obtain ⟨vs', hvs', hd⟩ := ih h
        exact ⟨vs', by simp [hvs'], hd⟩

/-- If a rank function strictly decreases along every dependency edge recorded in
the dict, the graph is acyclic. -/
theorem acyclic_of_rank (g : Graph) (rank : String → Nat)
    (h : ∀ p ∈ g, ∀ d ∈ p.2, rank d < rank p.1) : Acyclic g := by
  have hstep : ∀ a b, DepRel g a b → rank b < rank a := by
    intro a b hab
    obtain ⟨vs, hvs, hb⟩ := mem_of_depsOf hab
    exact h (a, vs) hvs b hb
  have hdec : ∀ a b, Relation.TransGen (DepRel g) a b → rank b < rank a := by
    intro a b hab
    induction hab with
    | single h1 => exact hstep _ _ h1
    | tail _ h2 ih => exact lt_trans (hstep _ _ h2) ih
  intro t htt
  exact lt_irrefl _ (hdec t t htt)

/-- If every member of a non-empty finite set of tasks has a dependency inside the
set, the dependency relation has a cycle. -/
theorem cycle_of_all_blocked (g : Graph) (S : List String) (t0 : String) (h0 : t0 ∈ S)
    (h : ∀ t ∈ S, ∃ d, d ∈ depsOf g t ∧ d ∈ S) :
    ∃ t, Relation.TransGen (DepRel g) t t := by
  classical
  have hfin : Finite {x : String // x ∈ S} := (List.finite_toSet S).to_subtype
  let nxt : {x : String // x ∈ S} → {x : String // x ∈ S} :=
    fun x => ⟨(h x.1 x.2).choose, (h x.1 x.2).choose_spec.2⟩
  have hstep : ∀ x : {x : String // x ∈ S}, DepRel g x.1 (nxt x).1 :=
    fun x => (h x.1 x.2).choose_spec.1
  let f : ℕ → {x : String // x ∈ S} := fun n => nxt^[n] ⟨t0, h0⟩
  have hf : ∀ n, DepRel g (f n).1 (f (n + 1)).1 := by
    intro n
    have hiter : f (n + 1) = nxt (f n) := Function.iterate_succ_apply' nxt n ⟨t0, h0⟩
    rw [hiter]
    exact hstep (f n)
  have hchain : ∀ m n, m < n → Relation.TransGen (DepRel g) (f m).1 (f n).1 := by
    intro m n hmn
    induction n with
    | zero => omega
    | succ k ih =>
        rcases Nat.lt_succ_iff_lt_or_eq.mp hmn with h' | h'
        · exact (ih h').tail (hf k)
        · subst h'
          exact Relation.TransGen.single (hf m)
  obtain ⟨m, n, hne, heq⟩ := Finite.exists_ne_map_eq_of_infinite f
  rcases Nat.lt_or_ge m n with hlt | hge
  · refine ⟨(f m).1, ?_⟩
    have := hchain m n hlt
    rwa [← heq] at this
  · have hlt : n < m := lt_of_le_of_ne hge (fun hh => hne hh.symm)
    refine ⟨(f n).1, ?_⟩
    have := hchain n m hlt
    rwa [heq] at this

/-- `LevelsOK` only depends on the membership of the accumulated set. -/
theorem LevelsOK_congr (deps : Graph) :
    ∀ (L : List (List String)) (r1 r2 : List String),
      (∀ x, x ∈ r1 ↔ x ∈ r2) → LevelsOK deps r1 L → LevelsOK deps r2 L := by
  intro L
  induction L with
  | nil => intro r1 r2 _ _; trivial
  | cons lvl rest ih =>
      intro r1 r2 hr h
      refine ⟨fun t ht d hd => (hr d).mp (h.1 t ht d hd), ?_⟩
      refine ih (r1 ++ lvl) (r2 ++ lvl) ?_ h.2
      intro x
      simp only [List.mem_append, hr x]

/-- Indexed reading of `LevelsOK`: a dependency of a task in level `i` is in the
initial accumulated set or in some strictly earlier level `j < i`. -/
theorem LevelsOK_indexed (deps : Graph) :
    ∀ (L : List (List String)) (r : List String), LevelsOK deps r L →
      ∀ i, ∀ hi : i < L.length, ∀ t ∈ L.get ⟨i, hi⟩, ∀ d ∈ depsOf deps t,
        d ∈ r ∨ ∃ j, ∃ hj : j < i, d ∈ L.get ⟨j, lt_trans hj hi⟩ := by
  intro L
  induction L with
  | nil => intro r _ i hi; simp at hi
  | cons lvl rest ih =>
      intro r h i hi t ht d hd
      match i with
      | 0 => exact Or.inl (h.1 t ht d hd)
      | i' + 1 =>
          have hi' : i' < rest.length := by simpa using hi
          have := ih (r ++ lvl) h.2 i' hi' t (by simpa using ht) d hd
          rcases this with hmem | ⟨j, hj, hdj⟩
          · rcases List.mem_append.mp hmem with hmem | hmem
            · exact Or.inl hmem
            · exact Or.inr ⟨0, Nat.succ_pos i', hmem⟩
          · exact Or.inr ⟨j + 1, Nat.succ_lt_succ hj, hdj⟩

/-- On a list of digit strings the sort succeeds and is the stable insertion
sort by numeric key. -/
theorem sort_ready_all_digit {l : List String} (h : l.all (fun s => isDigitStr s) = true) :
    sort_ready l = .ok (l.insertionSort numLe) := by
  unfold sort_ready
  have hno : l.any (fun s => !isDigitStr s) = false := by
    simp only [List.any_eq_false]
    intro s hs
    simp only [Bool.not_eq_true', Bool.not_eq_false]
    exact List.all_eq_true.mp h s hs
  rw [hno]
  simp [h]

/-- A successful sort returns a permutation of its input that is a
well-formed level. -/
theorem sort_ready_ok {l out : List String} (h : sort_ready l = .ok out) :
    out.Perm l ∧ sortedLevel out := by
  unfold sort_ready at h
  by_cases hmix : (l.any (fun s => isDigitStr s) && l.any (fun s => !isDigitStr s)) = true
  · rw [hmix] at h; simp at h
  · rw [Bool.not_eq_true] at hmix
    rw [hmix] at h
    simp only [Bool.false_eq_true, if_false] at h
    by_cases hall : l.all (fun s => isDigitStr s) = true
    · rw [if_pos hall] at h
      obtain rfl : l.insertionSort numLe = out := by simpa using h
      have hperm := List.perm_insertionSort numLe l
      refine ⟨hperm, Or.inl ⟨?_, List.sorted_insertionSort numLe l⟩⟩
      simp only [List.all_eq_true] at hall ⊢
      exact fun s hs => hall s (hperm.mem_iff.mp hs)
    · rw [if_neg hall] at h
      obtain rfl : l.insertionSort (fun a b : String => a ≤ b) = out := by simpa using h
      have hperm := List.perm_insertionSort (fun a b : String => a ≤ b) l
      have hnodig : l.all (fun s => !isDigitStr s) = true := by
        simp only [List.all_eq_true] at hall ⊢
        by_contra hc
        push_neg at hc
        obtain ⟨s, hs, hds⟩ := hc
        have hdig : isDigitStr s = true := by
          revert hds; cases isDigitStr s <;> simp
        have hany1 : l.any (fun s => isDigitStr s) = true :=
          List.any_eq_true.mpr ⟨s, hs, hdig⟩
        have : ∃ u ∈ l, isDigitStr u = false := by
          by_contra hc2
          push_neg at hc2
          exact hall fun u hu => by
            have := hc2 u hu
            revert this; cases isDigitStr u <;> simp
        obtain ⟨u, hu, hud⟩ := this
        have hany2 : l.any (fun s => !isDigitStr s) = true :=
          List.any_eq_true.mpr ⟨u, hu, by simp [hud]⟩
        simp [hany1, hany2] at hmix
      refine ⟨hperm, Or.inr ⟨?_, List.sorted_insertionSort _ l⟩⟩
      simp only [List.all_eq_true] at hnodig ⊢
      exact fun s hs => hnodig s (hperm.mem_iff.mp hs)

/-- One element of the list fails the filter, so filtering shrinks the list. -/
theorem length_filter_lt {l : List String} {p : String → Bool} {x : String}
    (hx : x ∈ l) (hpx : p x = false) : (l.filter p).length < l.length := by
  rw [List.length_filter_lt_length_iff_exists]
  exact ⟨x, hx, by simp [hpx]⟩

/-- Main invariant of the `compute_execution_levels` loop: on an acyclic graph,
with every remaining task a digit string and every dependency of a remaining
task either already resolved or still remaining, the loop succeeds and returns
levels that partition the remaining tasks with dependencies strictly earlier. -/
theorem compute_loop_spec (deps : Graph) (hA : Acyclic deps) :
    ∀ (fuel : Nat) (resolved remaining : List String),
      remaining.length ≤ fuel →
      remaining.Nodup →
      (∀ t ∈ remaining, isDigitStr t = true) →
      (∀ t ∈ remaining, ∀ d ∈ depsOf deps t, d ∈ resolved ∨ d ∈ remaining) →
      ∃ levels, compute_loop deps fuel resolved remaining = .ok levels ∧
        (∀ x, x ∈ levels.flatten ↔ x ∈ remaining) ∧
        levels.flatten.Nodup ∧
        LevelsOK deps resolved levels := by
  intro fuel
  induction fuel with
  | zero =>
      intro resolved remaining hlen _ _ _
      have hnil : remaining = [] := List.length_eq_zero.mp (Nat.le_zero.mp hlen)
      subst hnil
      exact ⟨[], rfl, by simp, by simp, trivial⟩
  | succ fuel ih =>
      intro resolved remaining hlen hnd hdig hinv
      match remaining, hlen, hnd, hdig, hinv with
      | [], _, _, _, _ => exact ⟨[], rfl, by simp, by simp, trivial⟩
      | t :: ts, hlen, hnd, hdig, hinv =>
          set remaining := t :: ts with hrem
          set ready0 := remaining.filter
            (fun u => (depsOf deps u).all (fun d => resolved.contains d)) with hready0
          -- progress: the ready set is non-empty, otherwise every remaining task
          -- has a dependency among the remaining tasks, giving a cycle
          have hne : ready0 ≠ [] := by
            intro h0
            have hblocked : ∀ u ∈ remaining, ∃ d, d ∈ depsOf deps u ∧ d ∈ remaining := by
              intro u hu
              have hnotall := List.filter_eq_nil_iff.mp h0 u hu
              have : ∃ d ∈ depsOf deps u, ¬(resolved.contains d = true) := by
                by_contra hc
                push_neg at hc
                exact hnotall (List.all_eq_true.mpr fun d hd => by
                  have := hc d hd
                  revert this
                  cases resolved.contains d <;> simp)
              obtain ⟨d, hd, hdc⟩ := this
              have hdnr : d ∉ resolved := fun hmem => hdc (List.elem_iff.mpr hmem)
              rcases hinv u hu d hd with hcase | hcase
              · exact absurd hcase hdnr
              · exact ⟨d, hd, hcase⟩
            obtain ⟨c, hc⟩ := cycle_of_all_blocked deps remaining t (by simp [hrem]) hblocked
            exact hA c hc
          have hsub : ∀ x ∈ ready0, x ∈ remaining := fun x hx => (List.mem_filter.mp hx).1
          have hr0dig : ready0.all (fun s => isDigitStr s) = true :=
            List.all_eq_true.mpr fun s hs => hdig s (hsub s hs)
          have hsort : sort_ready ready0 = .ok (ready0.insertionSort numLe) :=
            sort_ready_all_digit hr0dig
          set lvl := ready0.insertionSort numLe with hlvl
          have hperm : lvl.Perm ready0 := List.perm_insertionSort numLe ready0
          set rem' := remaining.filter (fun u => !(ready0.contains u)) with hrem'
          -- invariants for the recursive call
          have hlen' : rem'.length ≤ fuel := by
            have hstrict : rem'.length < remaining.length := by
              obtain ⟨y, hy⟩ := List.exists_mem_of_ne_nil ready0 hne
              refine length_filter_lt (hsub y hy) ?_
              simp [hy]
            omega
          have hnd' : rem'.Nodup := hnd.filter _
          have hdig' : ∀ u ∈ rem', isDigitStr u = true :=
            fun u hu => hdig u (List.mem_filter.mp hu).1
          have hinv' : ∀ u ∈ rem', ∀ d ∈ depsOf deps u,
              d ∈ resolved ++ ready0 ∨ d ∈ rem' := by
            intro u hu d hd
            rcases hinv u (List.mem_filter.mp hu).1 d hd with hcase | hcase
            · exact Or.inl (List.mem_append.mpr (Or.inl hcase))
            · by_cases hdc : d ∈ ready0
              · exact Or.inl (List.mem_append.mpr (Or.inr hdc))
              · refine Or.inr (List.mem_filter.mpr ⟨hcase, ?_⟩)
                simp only [Bool.not_eq_true']
                exact Bool.not_eq_true _ ▸ (fun hcon => hdc (List.elem_iff.mp hcon))
          obtain ⟨rest, heq, hmem, hndr, hlok⟩ :=
            ih (resolved ++ ready0) rem' hlen' hnd' hdig' hinv'
          refine ⟨lvl :: rest, ?_, ?_, ?_, ?_⟩
          · -- the loop step evaluates to ok (lvl :: rest)
            show compute_loop deps (fuel + 1) resolved (t :: ts) = .ok (lvl :: rest)
            rw [compute_loop]
            have hr0ne : ready0.isEmpty = false := by
              simpa [List.isEmpty_iff] using hne
            simp only [← hready0, hr0ne, Bool.false_eq_true, if_false, hsort, ← hrem', heq]
          · intro x
            simp only [List.flatten_cons, List.mem_append, hperm.mem_iff, hmem x]
            constructor
            · rintro (hx | hx)
              · exact hsub x hx
              · exact (List.mem_filter.mp hx).1
            · intro hx
              by_cases hxc : x ∈ ready0
              · exact Or.inl hxc
              · refine Or.inr (List.mem_filter.mpr ⟨hx, ?_⟩)
                simp only [Bool.not_eq_true']
                exact Bool.not_eq_true _ ▸ (fun hcon => hxc (List.elem_iff.mp hcon))
          · rw [List.flatten_cons, List.nodup_append]
            refine ⟨hperm.nodup_iff.mpr (hnd.filter _), hndr, ?_⟩
            intro x hx hx'
            have hxr : x ∈ ready0 := hperm.mem_iff.mp hx
            have hxrem : x ∈ rem' := (hmem x).mp hx'
            have := (List.mem_filter.mp hxrem).2
            simp at this
            exact this hxr
          · refine ⟨?_, ?_⟩
            · intro u hu d hd
              have hur : u ∈ ready0 := hperm.mem_iff.mp hu
              have hall := (List.mem_filter.mp hur).2
              have := List.all_eq_true.mp hall d hd
              exact List.elem_iff.mp this
            · refine LevelsOK_congr deps rest (resolved ++ ready0) (resolved ++ lvl) ?_ hlok
              intro x
              simp only [List.mem_append, hperm.mem_iff]

/-- Main invariant of the `build_execution_levels` loop (.scripts variant): on
an acyclic graph with every dependency of a remaining task completed or
remaining, the loop never reports the mid-loop scheduling `RuntimeError` nor
the post-loop exhaustion `RuntimeError` (only `int()` can fail), and emits at
most one level per remaining task. -/
theorem build_loop_spec (g : Graph) (hA : Acyclic g) :
    ∀ (fuel : Nat) (completed remaining : List String),
      remaining.length ≤ fuel →
      (∀ t ∈ remaining, ∀ d ∈ depsOf g t, d ∈ completed ∨ d ∈ remaining) →
      (∀ e, build_loop g fuel completed remaining = .error e → e = .valueErrorInt) ∧
      (∀ ls, build_loop g fuel completed remaining = .ok ls → ls.length ≤ remaining.length) := by
  intro fuel
  induction fuel with
  | zero =>
      intro completed remaining hlen _
      have hnil : remaining = [] := List.length_eq_zero.mp (Nat.le_zero.mp hlen)
      subst hnil
      exact ⟨fun e he => by simp [build_loop] at he, fun ls hls => by
        simp [build_loop] at hls
        simp [← hls]⟩
  | succ fuel ih =>
      intro completed remaining hlen hinv
      by_cases hciso : remaining.isEmpty = true
      · have hnil : remaining = [] := List.isEmpty_iff.mp hciso
        subst hnil
        exact ⟨fun e he => by simp [build_loop] at he, fun ls hls => by
          simp [build_loop] at hls
          simp [← hls]⟩
      · have hremne : remaining ≠ [] := fun h => hciso (by simp [h])
        set ready := remaining.filter
          (fun t => (depsOf g t).all (fun d => completed.contains d)) with hready
        have hne : ready ≠ [] := by
          intro h0
          obtain ⟨t0, ht0⟩ := List.exists_mem_of_ne_nil remaining hremne
          have hblocked : ∀ u ∈ remaining, ∃ d, d ∈ depsOf g u ∧ d ∈ remaining := by
            intro u hu
            have hnotall := List.filter_eq_nil_iff.mp h0 u hu
            have : ∃ d ∈ depsOf g u, ¬(completed.contains d = true) := by
              by_contra hc
              push_neg at hc
              exact hnotall (List.all_eq_true.mpr fun d hd => by
                have := hc d hd
                revert this
                cases completed.contains d <;> simp)
            obtain ⟨d, hd, hdc⟩ := this
            have hdnr : d ∉ completed := fun hmem => hdc (List.elem_iff.mpr hmem)
            rcases hinv u hu d hd with hcase | hcase
            · exact absurd hcase hdnr
            · exact ⟨d, hd, hcase⟩
          obtain ⟨c, hc⟩ := cycle_of_all_blocked g remaining t0 ht0 hblocked
          exact hA c hc
        have hrne : ready.isEmpty = false := by simpa [List.isEmpty_iff] using hne
        have hsub : ∀ x ∈ ready, x ∈ remaining := fun x hx => (List.mem_filter.mp hx).1
        set rem' := remaining.filter (fun t => !(ready.contains t)) with hrem'
        have hstrict : rem'.length < remaining.length := by
          obtain ⟨y, hy⟩ := List.exists_mem_of_ne_nil ready hne
          refine length_filter_lt (hsub y hy) ?_
          simp [hy]
        have hinv' : ∀ u ∈ rem', ∀ d ∈ depsOf g u, d ∈ completed ++ ready ∨ d ∈ rem' := by
          intro u hu d hd
          rcases hinv u (List.mem_filter.mp hu).1 d hd with hcase | hcase
          · exact Or.inl (List.mem_append.mpr (Or.inl hcase))
          · by_cases hdc : d ∈ ready
            · exact Or.inl (List.mem_append.mpr (Or.inr hdc))
            · refine Or.inr (List.mem_filter.mpr ⟨hcase, ?_⟩)
              simpa using hdc
        have hlen' : rem'.length ≤ fuel := by omega
        obtain ⟨iherr, ihok⟩ := ih (completed ++ ready) rem' hlen' hinv'
        have hunfold : build_loop g (fuel + 1) completed remaining =
            (if remaining.isEmpty = true then .ok []
             else
               if ready.isEmpty = true then .error .stuckError
               else
                 match intsOf ready with
                 | none => .error .valueErrorInt
                 | some zs =>
                     match build_loop g fuel (completed ++ ready) rem' with
                     | .error e => .error e
                     | .ok rest => .ok (zs.insertionSort (fun a b => a ≤ b) :: rest)) := by
          rw [build_loop]
        rw [if_neg (by simp [hciso]), hrne] at hunfold
        simp only [Bool.false_eq_true, if_false] at hunfold
        constructor
        · intro e he
          rw [hunfold] at he
          cases hints : intsOf ready with
          | none => rw [hints] at he; exact (Except.error.injEq _ _).mp he.symm ▸ rfl
          | some zs =>
              rw [hints] at he
              cases hrec : build_loop g fuel (completed ++ ready) rem' with
              | error e' =>
                  rw [hrec] at he
                  have : e' = e := by
                    have := he
                    simp at this
                    exact this
                  exact this ▸ iherr e' hrec
              | ok rest => rw [hrec] at he; simp at he
        · intro ls hls
          rw [hunfold] at hls
          cases hints : intsOf ready with
          | none => rw [hints] at hls; simp at hls
          | some zs =>
              rw [hints] at hls
              cases hrec : build_loop g fuel (completed ++ ready) rem' with
              | error e' => rw [hrec] at hls; simp at hls
              | ok rest =>
                  rw [hrec] at hls
                  have hlseq : zs.insertionSort (fun a b => a ≤ b) :: rest = ls := by
                    simpa using hls
                  have := ihok rest hrec
                  rw [← hlseq]
                  simp only [List.length_cons]
                  omega

/-- The rounded value never exceeds a natural bound on the unrounded value:
rounding moves the value by at most one half of the last decimal place. -/
theorem pyRound2_le_nat (q : ℚ) (m : ℕ) (h : q ≤ (m : ℚ)) : pyRound2 q ≤ (m : ℚ) := by
  have hfl : ((⌊100 * q⌋ : ℤ) : ℚ) ≤ 100 * q := Int.floor_le _
  have hb : ∀ n : ℤ, (n : ℚ) ≤ 100 * q + 1 / 2 → (n : ℚ) / 100 ≤ (m : ℚ) := by
    intro n hn
    have h2 : (n : ℚ) < ((100 * (m : ℤ) : ℤ) : ℚ) + 1 := by push_cast; linarith
    have h3 : n < 100 * (m : ℤ) + 1 := by exact_mod_cast h2
    have h4 : (n : ℚ) ≤ ((100 * (m : ℤ) : ℤ) : ℚ) := by
      exact_mod_cast Int.lt_add_one_iff.mp h3
    rw [div_le_iff₀ (by norm_num : (0 : ℚ) < 100)]
    push_cast at h4 ⊢
    linarith
  simp only [pyRound2]
  split_ifs with h1 h2 h3
  · exact hb _ (by linarith)
  · push_neg at h1
    exact hb _ (by push_cast; linarith)
  · exact hb _ (by linarith)
  · push_neg at h1
    exact hb _ (by push_cast; linarith)

/-- `getLast?` of a cons, phrased through `Option.or`. -/
theorem getLast?_cons_or {α : Type} (a : α) (l : List α) :
    (a :: l).getLast? = l.getLast?.or (some a) := by
  rw [List.getLast?_cons]
  cases l.getLast? with
  | none => rfl
  | some c => rfl

/-- Membership after a single `defaultdict(set)` insertion. -/
theorem mem_insert_dep (m : Graph) (k v x d : String) :
    d ∈ depsOf (insert_dep m k v) x ↔ d ∈ depsOf m x ∨ (x = k ∧ d = v) := by
  induction m with
  | nil =>
      by_cases hx : k = x
      · subst hx
        simp [insert_dep, depsOf, eq_comm]
      · rw [show insert_dep [] k v = [(k, [v])] from rfl]
        rw [show depsOf [(k, [v])] x = [] from by simp [depsOf, hx]]
        simp [depsOf]
        intro h
        exact absurd h.symm hx
  | cons p rest ih =>
      obtain ⟨k', vs⟩ := p
      by_cases hk : k' = k
      · subst hk
        rw [show insert_dep ((k', vs) :: rest) k' v =
          (k', if v ∈ vs then vs else vs ++ [v]) :: rest from by simp [insert_dep]]
        by_cases hx : k' = x
        · subst hx
          rw [show depsOf ((k', if v ∈ vs then vs else vs ++ [v]) :: rest) k' =
            (if v ∈ vs then vs else vs ++ [v]) from by simp [depsOf]]
          rw [show depsOf ((k', vs) :: rest) k' = vs from by simp [depsOf]]
          by_cases hv : v ∈ vs
          · simp only [if_pos hv]
            constructor
            · exact fun h => Or.inl h
            · rintro (h | ⟨-, h⟩)
              · exact h
              · exact h ▸ hv
          · simp only [if_neg hv, List.mem_append, List.mem_singleton]
            constructor
            · rintro (h | h)
              · exact Or.inl h
              · exact Or.inr ⟨by trivial, h⟩
            · rintro (h | ⟨-, h⟩)
              · exact Or.inl h
              · exact Or.inr h
        · rw [show depsOf ((k', if v ∈ vs then vs else vs ++ [v]) :: rest) x =
            depsOf rest x from by simp [depsOf, hx]]
          rw [show depsOf ((k', vs) :: rest) x = depsOf rest x from by simp [depsOf, hx]]
          constructor
          · exact fun h => Or.inl h
          · rintro (h | ⟨hxk, -⟩)
            · exact h
            · exact absurd hxk.symm hx
      · rw [show insert_dep ((k', vs) :: rest) k v =
          (k', vs) :: insert_dep rest k v from by simp [insert_dep, hk]]
        by_cases hx : k' = x
        · subst hx
          rw [show depsOf ((k', vs) :: insert_dep rest k v) k' = vs from by simp [depsOf]]
          rw [show depsOf ((k', vs) :: rest) k' = vs from by simp [depsOf]]
          constructor
          · exact fun h => Or.inl h
          · rintro (h | ⟨hxk, -⟩)
            · exact h
            · exact absurd hxk hk
        · rw [show depsOf ((k', vs) :: insert_dep rest k v) x =
            depsOf (insert_dep rest k v) x from by simp [depsOf, hx]]
          rw [show depsOf ((k', vs) :: rest) x = depsOf rest x from by simp [depsOf, hx]]
          exact ih

/-- Membership after inserting all dependencies of a record. -/
theorem mem_insert_deps (m : Graph) (k : String) (vs : List String) (x d : String) :
    d ∈ depsOf (insert_deps m k vs) x ↔ d ∈ depsOf m x ∨ (x = k ∧ d ∈ vs) := by
  induction vs generalizing m with
  | nil => simp [insert_deps]
  | cons v vs' ih =>
      show d ∈ depsOf (insert_deps (insert_dep m k v) k vs') x ↔ _
      rw [ih, mem_insert_dep]
      constructor
      · rintro ((hm | ⟨hx, hd⟩) | ⟨hx, hd⟩)
        · exact Or.inl hm
        · exact Or.inr ⟨hx, by simp [hd]⟩
        · exact Or.inr ⟨hx, by simp [hd]⟩
      · rintro (hm | ⟨hx, hd⟩)
        · exact Or.inl (Or.inl hm)
        · rcases List.mem_cons.mp hd with hd | hd
          · exact Or.inl (Or.inr ⟨hx, hd⟩)
          · exact Or.inr ⟨hx, hd⟩

/-- Lookup after a dict update of the task lookup table. -/
theorem assocFind_upsert (l : List (String × RawTask)) (k : String) (v : RawTask) (x : String) :
    assocFind (upsert l k v) x = if k = x then some v else assocFind l x := by
  induction l with
  | nil =>
      rw [show upsert [] k v = [(k, v)] from rfl]
      simp [assocFind]
  | cons p rest ih =>
      obtain ⟨k', v'⟩ := p
      by_cases hk : k' = k
      · subst hk
        rw [show upsert ((k', v') :: rest) k' v = (k', v) :: rest from by simp [upsert]]
        by_cases hx : k' = x
        · subst hx
          simp [assocFind]
        · simp [assocFind, hx]
      · rw [show upsert ((k', v') :: rest) k v = (k', v') :: upsert rest k v from by
          simp [upsert, hk]]
        by_cases hx : k' = x
        · subst hx
          rw [show assocFind ((k', v') :: upsert rest k v) k' = some v' from by simp [assocFind]]
          rw [if_neg (fun h : k = k' => hk h.symm)]
          simp [assocFind]
        · rw [show assocFind ((k', v') :: upsert rest k v) x =
            assocFind (upsert rest k v) x from by simp [assocFind, hx]]
          rw [show assocFind ((k', v') :: rest) x = assocFind rest x from by simp [assocFind, hx]]
          exact ih

/-- When a record's dependency normalisation succeeds it equals `norm_deps_of`. -/
theorem norm_deps_of_eq {t : RawTask} {ds : List String}
    (h : dep_ids (effective_deps t) = .ok ds) : norm_deps_of t = ds := by
  unfold norm_deps_of
  rw [h]

/-- `dep_ids` fails only on a null field, and then with the iteration `TypeError`. -/
theorem dep_ids_error {v : DepVal} {e : PyErr} (h : dep_ids v = .error e) :
    v = DepVal.null ∧ e = PyErr.typeErrorIter := by
  cases v with
  | list l => simp [dep_ids] at h
  | str s => simp [dep_ids] at h
  | null =>
      refine ⟨rfl, ?_⟩
      simpa [dep_ids] using h.symm

/-- `dep_ids` succeeds on any non-null field. -/
theorem dep_ids_ok {v : DepVal} (h : v ≠ DepVal.null) : ∃ ds, dep_ids v = .ok ds := by
  cases v with
  | list l => exact ⟨_, rfl⟩
  | str s => exact ⟨_, rfl⟩
  | null => exact absurd rfl h

/-- If no kept record has a null effective dependency field, building succeeds. -/
theorem build_aux_ok (ts : List RawTask) :
    ∀ deps lookup, (∀ t ∈ ts, raw_id t ≠ "" → effective_deps t ≠ DepVal.null) →
      ∃ out, build_aux ts deps lookup = .ok out := by
  induction ts with
  | nil => exact fun deps lookup _ => ⟨(deps, lookup), rfl⟩
  | cons t rest ih =>
      intro deps lookup h
      by_cases hid : raw_id t = ""
      · obtain ⟨out, hout⟩ := ih deps lookup (fun u hu => h u (by simp [hu]))
        exact ⟨out, by simp [build_aux, hid, hout]⟩
      · obtain ⟨ds, hds⟩ := dep_ids_ok (h t (by simp) hid)
        obtain ⟨out, hout⟩ := ih (insert_deps deps (raw_id t) ds)
          (upsert lookup (raw_id t) t) (fun u hu => h u (by simp [hu]))
        exact ⟨out, by simp [build_aux, hid, hds, hout]⟩

/-- A build failure is always the iteration `TypeError` and pins a kept record
whose effective dependency field is null. -/
theorem build_aux_error (ts : List RawTask) :
    ∀ deps lookup e, build_aux ts deps lookup = .error e →
      e = PyErr.typeErrorIter ∧ ∃ t ∈ ts, raw_id t ≠ "" ∧ effective_deps t = DepVal.null := by
  induction ts with
  | nil => intro deps lookup e h; simp [build_aux] at h
  | cons t rest ih =>
      intro deps lookup e h
      by_cases hid : raw_id t = ""
      · rw [show build_aux (t :: rest) deps lookup = build_aux rest deps lookup from by
          simp [build_aux, hid]] at h
        obtain ⟨he, u, hu, hne, hnull⟩ := ih deps lookup e h
        exact ⟨he, u, by simp [hu], hne, hnull⟩
      · cases hdi : dep_ids (effective_deps t) with
        | error e' =>
            obtain ⟨hnull, he'⟩ := dep_ids_error hdi
            rw [show build_aux (t :: rest) deps lookup = .error e' from by
              simp [build_aux, hid, hdi]] at h
            have : e' = e := by simpa using h
            exact ⟨this ▸ he', t, by simp, hid, hnull⟩
        | ok ds =>
            rw [show build_aux (t :: rest) deps lookup = build_aux rest
              (insert_deps deps (raw_id t) ds) (upsert lookup (raw_id t) t) from by
              simp [build_aux, hid, hdi]] at h
            obtain ⟨he, u, hu, hne, hnull⟩ := ih _ _ e h
            exact ⟨he, u, by simp [hu], hne, hnull⟩

/-- Dependency-set membership after a successful build: a dependency is
recorded for id `x` exactly when some record of the input (any record with that
id, not only the last) contributes it. -/
theorem build_aux_deps_mem (ts : List RawTask) :
    ∀ deps lookup D L, build_aux ts deps lookup = .ok (D, L) → ∀ x d, x ≠ "" →
      (d ∈ depsOf D x ↔
        d ∈ depsOf deps x ∨ ∃ t ∈ ts, raw_id t = x ∧ d ∈ norm_deps_of t) := by
  induction ts with
  | nil =>
      intro deps lookup D L h x d _
      obtain ⟨hD, hL⟩ : deps = D ∧ lookup = L := by
        have := h
        simp [build_aux] at this
        exact ⟨this.1, this.2⟩
      subst hD
      simp
  | cons t rest ih =>
      intro deps lookup D L h x d hx
      by_cases hid : raw_id t = ""
      · rw [show build_aux (t :: rest) deps lookup = build_aux rest deps lookup from by
          simp [build_aux, hid]] at h
        rw [ih deps lookup D L h x d hx]
        simp only [List.exists_mem_cons_iff]
        constructor
        · rintro (hm | hex)
          · exact Or.inl hm
          · exact Or.inr (Or.inr hex)
        · rintro (hm | ⟨hxt, -⟩ | hex)
          · exact Or.inl hm
          · exact absurd (hxt.symm.trans hid) hx
          · exact Or.inr hex
      · cases hdi : dep_ids (effective_deps t) with
        | error e' =>
            rw [show build_aux (t :: rest) deps lookup = .error e' from by
              simp [build_aux, hid, hdi]] at h
            simp at h
        | ok ds =>
            rw [show build_aux (t :: rest) deps lookup = build_aux rest
              (insert_deps deps (raw_id t) ds) (upsert lookup (raw_id t) t) from by
              simp [build_aux, hid, hdi]] at h
            rw [ih _ _ D L h x d hx, mem_insert_deps]
            simp only [List.exists_mem_cons_iff]
            constructor
            · rintro ((hm | ⟨hxk, hd⟩) | hex)
              · exact Or.inl hm
              · exact Or.inr (Or.inl ⟨hxk.symm, (norm_deps_of_eq hdi).symm ▸ hd⟩)
              · exact Or.inr (Or.inr hex)
            · rintro (hm | ⟨hxt, hd⟩ | hex)
              · exact Or.inl (Or.inl hm)
              · exact Or.inl (Or.inr ⟨hxt.symm, (norm_deps_of_eq hdi) ▸ hd⟩)
              · exact Or.inr hex

/-- Task-lookup contents after a successful build: for each id the last record
carrying it wins, falling back to the accumulator. -/
theorem build_aux_lookup (ts : List RawTask) :
    ∀ deps lookup D L, build_aux ts deps lookup = .ok (D, L) → ∀ x, x ≠ "" →
      assocFind L x =
        ((ts.filter (fun t => raw_id t == x)).getLast?).or (assocFind lookup x) := by
  induction ts with
  | nil =>
      intro deps lookup D L h x _
      obtain ⟨hD, hL⟩ : deps = D ∧ lookup = L := by
        have := h
        simp [build_aux] at this
        exact ⟨this.1, this.2⟩
      subst hL
      simp
  | cons t rest ih =>
      intro deps lookup D L h x hx
      by_cases hid : raw_id t = ""
      · rw [show build_aux (t :: rest) deps lookup = build_aux rest deps lookup from by
          simp [build_aux, hid]] at h
        rw [ih deps lookup D L h x hx]
        have hft : (raw_id t == x) = false := by
          simp only [beq_eq_false_iff_ne, ne_eq]
          intro hc
          exact hx (hc.symm.trans hid)
        rw [List.filter_cons_of_neg (by simp [hft])]
      · cases hdi : dep_ids (effective_deps t) with
        | error e' =>
            rw [show build_aux (t :: rest) deps lookup = .error e' from by
              simp [build_aux, hid, hdi]] at h
            simp at h
        | ok ds =>
            rw [show build_aux (t :: rest) deps lookup = build_aux rest
              (insert_deps deps (raw_id t) ds) (upsert lookup (raw_id t) t) from by
              simp [build_aux, hid, hdi]] at h
            rw [ih _ _ D L h x hx, assocFind_upsert]
            by_cases hxt : raw_id t = x
            · rw [if_pos hxt]
              rw [List.filter_cons_of_pos (by simp [hxt])]
              rw [getLast?_cons_or, Option.or_assoc]
              congr 1
            · rw [if_neg hxt]
              rw [List.filter_cons_of_neg (by simp [hxt])]

/-- Lookup after a dict update of the parsed dependency dict. -/
theorem dictFind_dict_set (l : Graph) (k : String) (v : List String) (x : String) :
    dictFind (dict_set l k v) x = if k = x then some v else dictFind l x := by
  induction l with
  | nil =>
      rw [show dict_set [] k v = [(k, v)] from rfl]
      simp [dictFind]
  | cons p rest ih =>
      obtain ⟨k', v'⟩ := p
      by_cases hk : k' = k
      · subst hk
        by_cases hx : k' = x
        · subst hx
          rw [show dict_set ((k', v') :: rest) k' v = (k', v) :: rest from by simp [dict_set]]
          simp [dictFind]
        · rw [show dict_set ((k', v') :: rest) k' v = (k', v) :: rest from by simp [dict_set]]
          simp [dictFind, hx]
      · rw [show dict_set ((k', v') :: rest) k v = (k', v') :: dict_set rest k v from by
          simp [dict_set, hk]]
        by_cases hx : k' = x
        · subst hx
          rw [show dictFind ((k', v') :: dict_set rest k v) k' = some v' from by simp [dictFind]]
          rw [if_neg (fun h : k = k' => hk h.symm)]
          simp [dictFind]
        · rw [show dictFind ((k', v') :: dict_set rest k v) x =
            dictFind (dict_set rest k v) x from by simp [dictFind, hx]]
          rw [show dictFind ((k', v') :: rest) x = dictFind rest x from by simp [dictFind, hx]]
          exact ih

/-- Parsed dict contents: for each id the last record carrying it wins outright
(earlier records' dependency lists are discarded), falling back to the
accumulator. -/
theorem parse_aux_find (ts : List STask) :
    ∀ acc x, x ≠ "" →
      dictFind (parse_aux ts acc) x =
        (((ts.filter (fun t => s_id t == x)).getLast?).map sdeps_of).or (dictFind acc x) := by
  induction ts with
  | nil => intro acc x _; simp [parse_aux]
  | cons t rest ih =>
      intro acc x hx
      by_cases hid : s_id t = ""
      · rw [show parse_aux (t :: rest) acc = parse_aux rest acc from by
          simp [parse_aux, hid]]
        rw [ih acc x hx]
        rw [List.filter_cons_of_neg (by
          simp only [beq_eq_false_iff_ne, ne_eq, Bool.not_eq_true]
          intro hc
          exact hx (hc.symm.trans hid))]
      · rw [show parse_aux (t :: rest) acc =
          parse_aux rest (dict_set acc (s_id t) (sdeps_of t)) from by simp [parse_aux, hid]]
        rw [ih _ x hx, dictFind_dict_set]
        by_cases hxt : s_id t = x
        · rw [if_pos hxt]
          rw [List.filter_cons_of_pos (by simp [hxt])]
          rw [getLast?_cons_or]
          cases hlast : (rest.filter (fun t => s_id t == x)).getLast? with
          | none => simp
          | some u => simp
        · rw [if_neg hxt]
          rw [List.filter_cons_of_neg (by simp [hxt])]

/-- `firstBad` finds nothing exactly when every referenced dependency is a key. -/
theorem firstBad_none_iff (g : Graph) :
    ∀ l, firstBad g l = none ↔ ∀ p ∈ l, ∀ d ∈ p.2, d ∈ keysOf g := by
  intro l
  induction l with
  | nil => simp [firstBad]
  | cons p rest ih =>
      obtain ⟨t, ds⟩ := p
      constructor
      · intro h q hq d hd
        have hsplit : ds.find? (fun d => !((keysOf g).contains d)) = none ∧
            firstBad g rest = none := by
          by_cases hf : ds.find? (fun d => !((keysOf g).contains d)) = none
          · refine ⟨hf, ?_⟩
            rw [show firstBad g ((t, ds) :: rest) = firstBad g rest from by
              simp only [firstBad]
              rw [hf]] at h
            exact h
          · obtain ⟨b, hb⟩ := Option.ne_none_iff_exists'.mp hf
            rw [show firstBad g ((t, ds) :: rest) = some (t, b) from by
              simp only [firstBad]
              rw [hb]] at h
            simp at h
        rcases List.mem_cons.mp hq with hq | hq
        · have := List.find?_eq_none.mp hsplit.1 d (by
            have : q = (t, ds) := hq
            rw [this] at hd
            exact hd)
          simpa using this
        · exact (ih.mp hsplit.2) q hq d hd
      · intro h
        have hf : ds.find? (fun d => !((keysOf g).contains d)) = none := by
          rw [List.find?_eq_none]
          intro d hd
          have := h (t, ds) (by simp) d hd
          simp [this]
        rw [show firstBad g ((t, ds) :: rest) = firstBad g rest from by
          simp only [firstBad]
          rw [hf]]
        exact ih.mpr (fun q hq d hd => h q (by simp [hq]) d hd)

/-- `validate_dependencies` succeeds exactly on graphs with no dangling
dependency. -/
theorem validate_ok_iff (g : Graph) :
    validate_dependencies g = .ok () ↔ NoDangling g := by
  unfold validate_dependencies NoDangling
  cases hfb : firstBad g g with
  | none => simpa using (firstBad_none_iff g g).mp hfb
  | some e =>
      simp only [Except.error.injEq]
      constructor
      · intro h; simp at h
      · intro h
        have := (firstBad_none_iff g g).mpr h
        rw [hfb] at this
        simp at this

/-- Every level a successful scripts run emits is homogeneous and sorted. -/
theorem compute_loop_sorted (deps : Graph) :
    ∀ fuel resolved remaining levels,
      compute_loop deps fuel resolved remaining = .ok levels →
      ∀ l ∈ levels, sortedLevel l := by
  intro fuel
  induction fuel with
  | zero =>
      intro resolved remaining levels h l hl
      match remaining with
      | [] =>
          have : levels = [] := by simpa [compute_loop] using h
          subst this
          simp at hl
      | t :: ts => simp [compute_loop] at h
  | succ fuel ih =>
      intro resolved remaining levels h l hl
      match remaining with
      | [] =>
          have : levels = [] := by simpa [compute_loop] using h
          subst this
          simp at hl
      | t :: ts =>
          rw [compute_loop] at h
          split at h
          · simp at h
          · next lvl heq =>
              split at h
              · simp at h
              · next rest hrec =>
                  have hlev : lvl :: rest = levels := by simpa using h
                  subst hlev
                  rcases List.mem_cons.mp hl with hl | hl
                  · exact hl ▸ (sort_ready_ok heq).2
                  · exact ih _ _ rest hrec l hl

/-- Every size is bounded by the folded maximum. -/
theorem le_foldr_max (l : List Nat) : ∀ x ∈ l, x ≤ l.foldr max 0 := by
  induction l with
  | nil => simp
  | cons a rest ih =>
      intro x hx
      rcases List.mem_cons.mp hx with hx | hx
      · exact hx ▸ le_max_left a (rest.foldr max 0)
      · exact le_trans (ih x hx) (le_max_right a (rest.foldr max 0))

/-- C1 (claim as stated is false): the acyclic, dangling-free graph with tasks
`"a"` and `"1"` and no dependencies makes the scripts Level Scheduler raise
`TypeError` from its sort key instead of returning a plan. -/
theorem spec_c1_counterexample :
    (["a", "1"] : List String).Nodup ∧
    (∀ t ∈ (["a", "1"] : List String), ∀ d ∈ depsOf ([] : Graph) t, d ∈ (["a", "1"] : List String)) ∧
    Acyclic ([] : Graph) ∧
    compute_execution_levels ([] : Graph) ["a", "1"] = .error PyErr.typeError :=
  ⟨by decide, by decide, acyclic_of_rank [] (fun _ => 0) (by decide), rfl⟩

/-- C1 (amended): for every acyclic dependency graph with no dangling references
in which every task id is a string of decimal digits, the scripts Level
Scheduler returns a plan in which every task id appears in exactly one level,
the union of all levels is the full task-id set, and every dependency of a task
placed in level `i` appears in some level `j < i`. -/
theorem spec_c1 (deps : Graph) (tasks : List String) (hnd : tasks.Nodup)
    (hdig : ∀ t ∈ tasks, isDigitStr t = true)
    (hND : ∀ t ∈ tasks, ∀ d ∈ depsOf deps t, d ∈ tasks) (hA : Acyclic deps) :
    ∃ levels, compute_execution_levels deps tasks = .ok levels ∧
      (∀ x, x ∈ levels.flatten ↔ x ∈ tasks) ∧ levels.flatten.Nodup ∧
      ∀ i, ∀ hi : i < levels.length, ∀ t ∈ levels.get ⟨i, hi⟩, ∀ d ∈ depsOf deps t,
        ∃ j, ∃ hj : j < i, d ∈ levels.get ⟨j, lt_trans hj hi⟩ := by
  cases htasks : tasks with
  | nil =>
      refine ⟨[], by simp [compute_execution_levels], by simp, by simp, ?_⟩
      intro i hi
      simp at hi
  | cons t0 ts0 =>
      obtain ⟨levels, heq, hmem, hnodup, hlok⟩ :=
        compute_loop_spec deps hA tasks.length [] tasks (le_refl _)
          (htasks ▸ hnd) (htasks ▸ hdig)
          (fun t ht d hd => Or.inr (htasks ▸ hND t (htasks ▸ ht) d hd))
      refine ⟨levels, ?_, fun x => (hmem x).trans (by rw [htasks]), hnodup, ?_⟩
      · rw [show compute_execution_levels deps (t0 :: ts0) =
          compute_loop deps (t0 :: ts0).length [] (t0 :: ts0) from by
          rw [compute_execution_levels, if_neg (by simp)]]
        rw [htasks] at heq
        exact heq
      · intro i hi t ht d hd
        rcases LevelsOK_indexed deps levels [] hlok i hi t ht d hd with hfalse | hgood
        · simp at hfalse
        · exact hgood

/-- C1 witness: the four-task scenario graph satisfies the amended hypotheses. -/
theorem spec_c1_witness :
    ∃ levels,
      compute_execution_levels [("2", ["1"]), ("4", ["1", "2"])] ["1", "2", "3", "4"] =
        .ok levels ∧
      (∀ x, x ∈ levels.flatten ↔ x ∈ (["1", "2", "3", "4"] : List String)) ∧
      levels.flatten.Nodup ∧
      ∀ i, ∀ hi : i < levels.length, ∀ t ∈ levels.get ⟨i, hi⟩,
        ∀ d ∈ depsOf [("2", ["1"]), ("4", ["1", "2"])] t,
        ∃ j, ∃ hj : j < i, d ∈ levels.get ⟨j, lt_trans hj hi⟩ :=
  spec_c1 [("2", ["1"]), ("4", ["1", "2"])] ["1", "2", "3", "4"] (by decide) (by decide)
    (by decide)
    (acyclic_of_rank _ (fun s => if s = "4" then 2 else if s = "2" then 1 else 0) (by decide))

/-- C2: the .scripts validator raises on the two-cycle `{1: [2], 2: [1]}`
(naming task 1) and on the self-dependency `{5: [5]}` (naming task 5), and the
referential check passes first on the two-cycle; but the scripts variant's
leveling run on the same cyclic graph raises nothing and silently dumps the
cyclic remainder into a final best-effort level `[["1", "2"]]`. -/
theorem spec_c2 :
    detect_circular_dependencies [("1", ["2"]), ("2", ["1"])] = .error (DetectErr.cyc "1") ∧
    detect_circular_dependencies [("5", ["5"])] = .error (DetectErr.cyc "5") ∧
    validate_dependencies [("1", ["2"]), ("2", ["1"])] = .ok () ∧
    compute_execution_levels [("1", ["2"]), ("2", ["1"])] ["1", "2"] = .ok [["1", "2"]] :=
  ⟨rfl, rfl, rfl, rfl⟩

/-- C3: the .scripts validator fails exactly on graphs with a dangling
dependency, and on `{A: [Z]}` it raises naming the offending task `A` and the
missing id `Z`; but the scripts variant's leveling run on the same graph raises
nothing and returns the plan `[["A"]]`. -/
theorem spec_c3 :
    (∀ g : Graph, validate_dependencies g = .ok () ↔ NoDangling g) ∧
    validate_dependencies [("A", ["Z"])] = .error ("A", "Z") ∧
    compute_execution_levels [("A", ["Z"])] ["A"] = .ok [["A"]] :=
  ⟨validate_ok_iff, rfl, rfl⟩

/-- C3 witness: the validator equivalence evaluated on a concrete graph. -/
theorem spec_c3_witness :
    validate_dependencies [("B", ["C"]), ("C", [])] = .ok () ↔
      NoDangling [("B", ["C"]), ("C", [])] :=
  spec_c3.1 [("B", ["C"]), ("C", [])]

/-- C4: on the task set `{1: [], 2: [1], 3: [], 4: [1, 2]}` both variants
produce the plan `[[1, 3], [2], [4]]` with stats `total tasks 4`, `3` levels,
`max parallelism 2` and `avg parallelism 1.33`. -/
theorem spec_c4 :
    (∃ L, build_dependency_graph
        [⟨some (Prim.i 1), some (DepVal.list []), none⟩,
         ⟨some (Prim.i 2), some (DepVal.list [DepEntry.prim (Prim.i 1)]), none⟩,
         ⟨some (Prim.i 3), some (DepVal.list []), none⟩,
         ⟨some (Prim.i 4),
           some (DepVal.list [DepEntry.prim (Prim.i 1), DepEntry.prim (Prim.i 2)]), none⟩] =
        .ok ([("2", ["1"]), ("4", ["1", "2"])], L) ∧
      L.map Prod.fst = ["1", "2", "3", "4"]) ∧
    compute_execution_levels [("2", ["1"]), ("4", ["1", "2"])] ["1", "2", "3", "4"] =
      .ok [["1", "3"], ["2"], ["4"]] ∧
    compute_stats [["1", "3"], ["2"], ["4"]] = ⟨4, 3, 2, 133 / 100⟩ ∧
    build_execution_levels [("1", []), ("2", ["1"]), ("3", []), ("4", ["1", "2"])] =
      .ok [[1, 3], [2], [4]] ∧
    calculate_parallelism_stats [[1, 3], [2], [4]] = ⟨4, 3, 2, 133 / 100, 133 / 100⟩ := by
  refine ⟨⟨_, rfl, rfl⟩, rfl, ?_, rfl, ?_⟩
  · simp only [compute_stats, pyRound2]
    norm_num [Int.floor_eq_iff, Stats.mk.injEq]
  · simp only [calculate_parallelism_stats, pyRound2]
    norm_num [Int.floor_eq_iff, SStats.mk.injEq]

/-- C5: every level a successful scripts run emits is homogeneous in key kind
and deterministically ordered (digit ids ascending by numeric value, non-digit
ids ascending lexicographically), and the leveling computation is a pure
function, so running it twice on the same graph gives identical output. -/
theorem spec_c5 :
    (∀ (deps : Graph) (tasks : List String) levels,
      compute_execution_levels deps tasks = .ok levels → ∀ l ∈ levels, sortedLevel l) ∧
    (∀ (deps : Graph) (tasks : List String),
      compute_execution_levels deps tasks = compute_execution_levels deps tasks) := by
  constructor
  · intro deps tasks levels h l hl
    rw [compute_execution_levels] at h
    by_cases hemp : tasks.isEmpty = true
    · rw [if_pos hemp] at h
      obtain rfl : ([] : List (List String)) = levels := by simpa using h
      simp at hl
    · rw [if_neg hemp] at h
      exact compute_loop_sorted deps tasks.length [] tasks levels h l hl
  · intro deps tasks
    rfl

/-- C5 witness: the first level of the scenario run is sorted as claimed. -/
theorem spec_c5_witness : sortedLevel ["1", "3"] :=
  spec_c5.1 [("2", ["1"]), ("4", ["1", "2"])] ["1", "2", "3", "4"]
    [["1", "3"], ["2"], ["4"]] rfl ["1", "3"] (by simp)

/-- C6: on a validated (acyclic, dangling-free) graph the .scripts layering
loop can only fail through `int()` (never the mid-loop scheduling error nor the
iteration-cap error: each pass schedules at least one task), a successful run
emits at most one level per task, and the explicit cap `task count + 1` turns a
loop that still has tasks when the budget is spent into a reported
`RuntimeError` instead of non-termination. -/
theorem spec_c6 (g : Graph) (hND : NoDangling g) (hA : Acyclic g) :
    (∀ e, build_execution_levels g = .error e → e = SErr.valueErrorInt) ∧
    (∀ ls, build_execution_levels g = .ok ls → ls.length ≤ g.length) ∧
    (∀ (completed : List String) (r : String) (rs : List String),
      build_loop g 0 completed (r :: rs) = .error SErr.exhaustedError) := by
  have hinv : ∀ t ∈ keysOf g, ∀ d ∈ depsOf g t, d ∈ ([] : List String) ∨ d ∈ keysOf g := by
    intro t _ d hd
    obtain ⟨vs, hvs, hdv⟩ := mem_of_depsOf hd
    exact Or.inr (hND (t, vs) hvs d hdv)
  have hlen : (keysOf g).length ≤ g.length + 1 := by
    simp [keysOf]
  obtain ⟨herr, hok⟩ := build_loop_spec g hA (g.length + 1) [] (keysOf g) hlen hinv
  refine ⟨herr, ?_, ?_⟩
  · intro ls hls
    have := hok ls hls
    simpa [keysOf] using this
  · intro completed r rs
    rfl

/-- C6 witness: the scenario graph is validated and schedules in three levels. -/
theorem spec_c6_witness :
    ([[1, 3], [2], [4]] : List (List Int)).length ≤
      ([("1", []), ("2", ["1"]), ("3", []), ("4", ["1", "2"])] : Graph).length :=
  (spec_c6 [("1", []), ("2", ["1"]), ("3", []), ("4", ["1", "2"])] (by unfold NoDangling; decide)
    (acyclic_of_rank _ (fun s => if s = "4" then 2 else if s = "2" then 1 else 0)
      (by decide))).2.1 [[1, 3], [2], [4]] rfl

/-- C7: the scripts Stats Calculator returns the sum of level sizes as
`total_tasks`, the number of levels, the largest level size, the all-zero
record on empty input, and `avg_parallelism` equal to
`total_tasks / total_levels` rounded to two decimal places and never exceeding
`max_parallelism`. -/
theorem spec_c7 (levels : List (List String)) :
    (compute_stats levels).total_tasks = (levels.map List.length).sum ∧
    (compute_stats levels).total_levels = levels.length ∧
    (∀ l ∈ levels, l.length ≤ (compute_stats levels).max_parallelism) ∧
    (levels = [] → compute_stats levels = ⟨0, 0, 0, 0⟩) ∧
    (levels ≠ [] → (compute_stats levels).avg_parallelism =
      pyRound2 (((levels.map List.length).sum : ℚ) / (levels.length : ℚ))) ∧
    (compute_stats levels).avg_parallelism ≤ ((compute_stats levels).max_parallelism : ℚ) := by
  cases levels with
  | nil => exact ⟨rfl, rfl, by simp, fun _ => rfl, fun h => absurd rfl h, by simp [compute_stats]⟩
  | cons l0 rest =>
      have hunfold : compute_stats (l0 :: rest) =
          ⟨((l0 :: rest).map List.length).sum, (l0 :: rest).length,
            ((l0 :: rest).map List.length).foldr max 0,
            pyRound2 ((((l0 :: rest).map List.length).sum : ℚ) / ((l0 :: rest).length : ℚ))⟩ := by
        rw [compute_stats, if_neg (by simp)]
      rw [hunfold]
      refine ⟨rfl, rfl, ?_, by simp, fun _ => rfl, ?_⟩
      · intro l hl
        exact le_foldr_max _ _ (List.mem_map_of_mem List.length hl)
      · set sizes := (l0 :: rest).map List.length with hsizes
        set m := sizes.foldr max 0 with hm
        have hsum : sizes.sum ≤ sizes.length * m := by
          have := List.sum_le_card_nsmul sizes m (le_foldr_max sizes)
          simpa [smul_eq_mul] using this
        have hlenpos : (0 : ℚ) < ((l0 :: rest).length : ℚ) := by
          exact_mod_cast Nat.succ_pos rest.length
        have hdiv : ((sizes.sum : ℚ) / ((l0 :: rest).length : ℚ)) ≤ (m : ℚ) := by
          rw [div_le_iff₀ hlenpos]
          have hlen : sizes.length = (l0 :: rest).length := by simp [hsizes]
          calc (sizes.sum : ℚ) ≤ ((sizes.length * m : ℕ) : ℚ) := by exact_mod_cast hsum
            _ = (m : ℚ) * ((l0 :: rest).length : ℚ) := by
                rw [hlen]
                push_cast
                ring
        exact pyRound2_le_nat _ m hdiv

/-- C7 witness: the scenario stats satisfy the average-parallelism bound. -/
theorem spec_c7_witness :
    (compute_stats [["1", "3"], ["2"], ["4"]]).avg_parallelism ≤
      ((compute_stats [["1", "3"], ["2"], ["4"]]).max_parallelism : ℚ) :=
  (spec_c7 [["1", "3"], ["2"], ["4"]]).2.2.2.2.2

/-- C8 (claim as stated is false): the Graph Builder does raise — a record with
a non-empty id whose `dependencies` field is absent and whose `dependsOn` field
is JSON null makes `build_dependency_graph` iterate over `None` and raise
`TypeError`. -/
theorem spec_c8_counterexample :
    build_dependency_graph [⟨some (Prim.s "A"), none, some DepVal.null⟩] =
      .error PyErr.typeErrorIter := rfl

/-- C8 (amended): records with an empty or absent identifier are skipped with no
effect; an absent dependency field normalises to the empty set; the
sequence-of-identifiers and sequence-of-objects encodings normalise to canonical
string ids with empty-stringifying entries dropped; a single delimited string is
iterated character-wise (one dependency per character, not split into
identifiers); and the builder raises exactly when some kept record's effective
dependency field is null. -/
theorem spec_c8 :
    (∀ (t : RawTask) (rest : List RawTask), raw_id t = "" →
      build_dependency_graph (t :: rest) = build_dependency_graph rest) ∧
    (∀ t : RawTask, t.dependencies = none → t.dependsOn = none →
      dep_ids (effective_deps t) = .ok []) ∧
    (∀ l : List DepEntry, dep_ids (DepVal.list l) =
      .ok ((l.map norm_entry).filter (fun s => s ≠ ""))) ∧
    dep_ids (DepVal.str "12,34") = .ok ["1", "2", ",", "3", "4"] ∧
    (∀ ts : List RawTask, (∀ t ∈ ts, raw_id t ≠ "" → effective_deps t ≠ DepVal.null) →
      ∃ out, build_dependency_graph ts = .ok out) ∧
    (∀ (ts : List RawTask) e, build_dependency_graph ts = .error e →
      e = PyErr.typeErrorIter ∧ ∃ t ∈ ts, raw_id t ≠ "" ∧ effective_deps t = DepVal.null) := by
  refine ⟨?_, ?_, fun l => rfl, rfl, ?_, ?_⟩
  · intro t rest h
    simp [build_dependency_graph, build_aux, h]
  · intro t h1 h2
    simp [effective_deps, h1, h2, truthyD, dep_ids]
  · intro ts h
    exact build_aux_ok ts [] [] h
  · intro ts e h
    exact build_aux_error ts [] [] e h

/-- C8 witness: a record with an absent dependency field contributes no
dependencies and raises nothing. -/
theorem spec_c8_witness :
    dep_ids (effective_deps ⟨some (Prim.i 1), none, none⟩) = .ok [] :=
  spec_c8.2.1 ⟨some (Prim.i 1), none, none⟩ rfl rfl

/-- C9: there are valid (acyclic, dangling-free) inputs on which each scheduler
raises instead of returning a plan — the .scripts variant applies `int()` to
every id, so the single valid task `"a"` raises `ValueError` (and the levels it
does return hold integers, as in `[[1], [2]]`); the scripts variant's sort key
raises `TypeError` when one level holds the digit id `"1"` and the non-digit id
`"a"`. -/
theorem spec_c9 :
    NoDangling [("a", [])] ∧ Acyclic [("a", [])] ∧
    build_execution_levels [("a", [])] = .error SErr.valueErrorInt ∧
    build_execution_levels [("1", []), ("2", ["1"])] = .ok [[1], [2]] ∧
    (∀ t ∈ (["a", "1"] : List String), ∀ d ∈ depsOf ([] : Graph) t,
      d ∈ (["a", "1"] : List String)) ∧
    Acyclic ([] : Graph) ∧
    compute_execution_levels ([] : Graph) ["a", "1"] = .error PyErr.typeError :=
  ⟨by unfold NoDangling; decide, acyclic_of_rank _ (fun _ => 0) (by decide), rfl, rfl,
   by decide, acyclic_of_rank _ (fun _ => 0) (by decide), rfl⟩

/-- C10: after a successful scripts build, a dependency is recorded for an id
exactly when any input record with that id contributes it (so two records with
the same id yield the union of their dependency sets), while the task lookup
keeps only the last such record; the .scripts parser instead lets the last
record win outright, discarding the earlier record's dependencies. -/
theorem spec_c10 :
    (∀ (ts : List RawTask) D L x d, build_dependency_graph ts = .ok (D, L) → x ≠ "" →
      (d ∈ depsOf D x ↔ ∃ t ∈ ts, raw_id t = x ∧ d ∈ norm_deps_of t)) ∧
    (∀ (ts : List RawTask) D L x, build_dependency_graph ts = .ok (D, L) → x ≠ "" →
      assocFind L x = (ts.filter (fun t => raw_id t == x)).getLast?) ∧
    (∀ (ts : List STask) x, x ≠ "" →
      dictFind (parse_tasks ts) x =
        ((ts.filter (fun t => s_id t == x)).getLast?).map sdeps_of) := by
  refine ⟨?_, ?_, ?_⟩
  · intro ts D L x d h hx
    rw [build_aux_deps_mem ts [] [] D L h x d hx]
    simp [depsOf]
  · intro ts D L x h hx
    rw [build_aux_lookup ts [] [] D L h x hx]
    simp [assocFind]
  · intro ts x hx
    rw [show parse_tasks ts = parse_aux ts [] from rfl, parse_aux_find ts [] x hx]
    simp [dictFind]

/-- C10 witness: two records with id 7 — the scripts lookup keeps the second. -/
theorem spec_c10_witness :
    assocFind [("7", ⟨some (Prim.i 7), some (DepVal.list [DepEntry.prim (Prim.i 2)]), none⟩)]
        "7" =
      (([⟨some (Prim.i 7), some (DepVal.list [DepEntry.prim (Prim.i 1)]), none⟩,
         ⟨some (Prim.i 7), some (DepVal.list [DepEntry.prim (Prim.i 2)]), none⟩] :
        List RawTask).filter (fun t => raw_id t == "7")).getLast? :=
  spec_c10.2.1
    [⟨some (Prim.i 7), some (DepVal.list [DepEntry.prim (Prim.i 1)]), none⟩,
     ⟨some (Prim.i 7), some (DepVal.list [DepEntry.prim (Prim.i 2)]), none⟩]
    [("7", ["1", "2"])]
    [("7", ⟨some (Prim.i 7), some (DepVal.list [DepEntry.prim (Prim.i 2)]), none⟩)]
    "7" rfl (by decide)
